import Mathlib

/-!
Shallow embedding of the adaptive mastery-tracking engine of the `prepst`
repository, together with theorems settling the frozen claims about it.

Sources embedded:
* `backend/app/services/bkt_service.py` — `BKTService.update_mastery`
  (Bayesian Knowledge Tracing update, bounds clamp, velocity, plateau
  detection, learning-event emission).
* `backend/app/services/study_plan_service.py` —
  `StudyPlanService._create_section_sessions` (session packer) and the
  batch-allocation core of `StudyPlanService.generate_next_batch`.
* `backend/app/services/mock_exam_service.py` —
  `MockExamService._convert_to_scaled_score`.

Modelling conventions: Python floats are modelled as exact rationals (ℚ);
Python `round(x, 4)` / `round(x)` use round-half-even on floats, modelled
here by `round4` / `roundHalfEven` (the tie-breaking rule is irrelevant to
every claim below, and is modelled exactly where it could matter); Python
`int(x)` truncation toward zero is `pyInt`; Python dicts keyed by opaque
topic-id strings are association lists over a type `α` with decidable
equality.  Database reads and writes are modelled by explicit state
passing; event-log inserts by an emitted event list.
-/

namespace Prepst

/-- Python `round(q, 4)`: round to 4 decimal places.  Mathlib `round` is
round-half-up while Python uses round-half-even on floats; the two differ
only at exact ties in the 5th decimal, which no claim below depends on. -/
def round4 (q : ℚ) : ℚ := (round (q * 10000) : ℚ) / 10000

/-- Result of the pure numeric core of `BKTService.update_mastery`
(bkt_service.py lines 67-86): the evidence posterior, the clamped new
mastery, and the velocity `new_mastery - current_mastery`. -/
structure BKTUpdate where
  pEvidence : ℚ
  newMastery : ℚ
  velocity : ℚ
deriving Repr, DecidableEq

/-- Numeric core of `BKTService.update_mastery` (bkt_service.py lines
62-86), translated line by line: Bayesian evidence update with the
`denominator > 0` guard, learning step, clamp to [0.01, 0.99], and
velocity.  The service rounds the stored and returned copies of these
values to 4 decimals; that happens in `updateRecord` below. -/
def updateMastery (p pT pG pS : ℚ) (isCorrect : Bool) : BKTUpdate :=
  let pEvidence :=
    if isCorrect then
      -- P(L | correct) = P(L)(1-P(S)) / [P(L)(1-P(S)) + (1-P(L))P(G)]
      let numerator := p * (1 - pS)
      let denominator := numerator + (1 - p) * pG
      if denominator > 0 then numerator / denominator else p
    else
      -- P(L | incorrect) = P(L)P(S) / [P(L)P(S) + (1-P(L))(1-P(G))]
      let numerator := p * pS
      let denominator := numerator + (1 - p) * (1 - pG)
      if denominator > 0 then numerator / denominator else p
  let newMastery0 := pEvidence + (1 - pEvidence) * pT
  -- Keep within bounds [0.01, 0.99] to avoid certainty
  let newMastery := min 0.99 (max 0.01 newMastery0)
  { pEvidence := pEvidence
    newMastery := newMastery
    velocity := newMastery - p }

/-- Event types inserted into the `learning_events` table by
`update_mastery`. -/
inductive EventType where
  | masteryUpdated
  | masteryAchieved
  | plateauDetected
deriving Repr, DecidableEq

/-- MasteryRecord state for one (learner, skill) pair, mirroring the
`user_skill_mastery` row fields read and written by `update_mastery`. -/
structure MasteryRecord where
  masteryProbability : ℚ
  learnRate : ℚ
  guessProbability : ℚ
  slipProbability : ℚ
  totalAttempts : ℕ
  correctAttempts : ℕ
  learningVelocity : ℚ
  plateauFlag : Bool
deriving Repr, DecidableEq

/-- Full `BKTService.update_mastery` on a mastery record (bkt_service.py
lines 62-151): numeric update, attempt counters, plateau detection, the
database write (new record state, with mastery and velocity rounded to 4
decimals as in `update_data`), and the learning events emitted in program
order: `mastery_updated` always, `mastery_achieved` when the unrounded new
mastery crosses 0.95 upward, `plateau_detected` whenever the freshly
computed `plateau_detected` flag is set. -/
def updateRecord (r : MasteryRecord) (isCorrect : Bool) :
    MasteryRecord × List EventType :=
  let u := updateMastery r.masteryProbability r.learnRate
    r.guessProbability r.slipProbability isCorrect
  let totalAttempts := r.totalAttempts + 1
  let correctAttempts := r.correctAttempts + (if isCorrect then 1 else 0)
  -- Detect plateau: low velocity + enough attempts
  let plateauDetected : Bool :=
    if 10 ≤ totalAttempts ∧ |u.velocity| < 0.02 then true else false
  let newRecord : MasteryRecord :=
    { masteryProbability := round4 u.newMastery
      learnRate := r.learnRate
      guessProbability := r.guessProbability
      slipProbability := r.slipProbability
      totalAttempts := totalAttempts
      correctAttempts := correctAttempts
      learningVelocity := round4 u.velocity
      plateauFlag := plateauDetected }
  let events : List EventType :=
    [EventType.masteryUpdated]
      ++ (if 0.95 ≤ u.newMastery ∧ r.masteryProbability < 0.95 then
            [EventType.masteryAchieved] else [])
      ++ (if plateauDetected then [EventType.plateauDetected] else [])
  (newRecord, events)

/-! ### SessionPacker: `StudyPlanService._create_section_sessions`
(study_plan_service.py lines 702-831).  Topic ids are opaque strings in the
source; they are modelled by a type `α` with decidable equality.  A
`topic_distribution` dict is an association list `List (α × ℕ)` (dict keys
are unique; no theorem below needs that assumption).  A session is a list
of per-topic allocations; the `topic_name` field copied from
`topics_lookup` is presentation metadata and is not modelled. -/

variable {α : Type} [DecidableEq α]

/-- Per-topic share of one session: `count // num_sessions`, plus one for
the first `count % num_sessions` sessions (study_plan_service.py lines
748-753). -/
def allocFor (count numSessions idx : ℕ) : ℕ :=
  count / numSessions + (if idx < count % numSessions then 1 else 0)

/-- Content of session `idx` after the even-distribution loop
(study_plan_service.py lines 743-761): every topic with a nonzero total
contributes its `allocFor` share when that share is positive. -/
def sessionAt (dist : List (α × ℕ)) (numSessions idx : ℕ) : List (α × ℕ) :=
  dist.filterMap fun e =>
    if e.2 = 0 then none
    else
      let q := allocFor e.2 numSessions idx
      if q = 0 then none else some (e.1, q)

/-- All `numSessions` sessions produced by the even-distribution loop. -/
def sessionsOf (dist : List (α × ℕ)) (numSessions : ℕ) :
    List (List (α × ℕ)) :=
  (List.range numSessions).map (sessionAt dist numSessions)

/-- Total number of questions in one session (the `session_counts`
bookkeeping of the source). -/
def sessionCount (s : List (α × ℕ)) : ℕ := (s.map (·.2)).sum

/-- Largest session size, `max(session_counts) if session_counts else 0`
(study_plan_service.py line 764). -/
def maxSessionCount (ss : List (List (α × ℕ))) : ℕ :=
  (ss.map sessionCount).foldr max 0

/-- Add `q` questions to the first entry for topic `t`, mirroring the
in-place `existing["num_questions"] += ...` update on the first matching
dict (study_plan_service.py lines 812-814). -/
def incrementFirst (d : List (α × ℕ)) (t : α) (q : ℕ) : List (α × ℕ) :=
  match d with
  | [] => []
  | e :: rest =>
    if e.1 = t then (e.1, e.2 + q) :: rest else e :: incrementFirst rest t q

/-- Bool test for key membership in an association list. -/
def hasKey (d : List (α × ℕ)) (t : α) : Bool :=
  d.any fun e => e.1 = t

/-- Merge one topic allocation into the accumulating final session
(study_plan_service.py lines 810-816): add to the existing entry if the
topic is already present, else append a copy. -/
def mergeItem (acc : List (α × ℕ)) (e : α × ℕ) : List (α × ℕ) :=
  if hasKey acc e.1 then incrementFirst acc e.1 e.2 else acc ++ [e]

/-- Merge a list of sessions into one final session by summing per-topic
counts (study_plan_service.py lines 804-817). -/
def mergeSessions (ss : List (List (α × ℕ))) : List (α × ℕ) :=
  ss.foldl (fun acc s => s.foldl mergeItem acc) []

/-- `StudyPlanService._create_section_sessions` (study_plan_service.py
lines 702-831), for one section: initial `num_sessions` via ceiling
division by `MAX_QUESTIONS = 25`, even distribution of each topic across
sessions, one re-distribution with `num_sessions + 1` when some session
exceeds 25, removal of empty sessions, and — when a truthy
`target_sessions` is supplied and exceeded — merging every session beyond
position `target_sessions - 1` into one final session.  `target = none`
models `target_sessions=None`; Python treats `target_sessions=0` as falsy,
hence the `t ≠ 0` conjunct. -/
def createSectionSessions (dist : List (α × ℕ)) (target : Option ℕ) :
    List (List (α × ℕ)) :=
  if dist.isEmpty then []
  else
    let totalQuestions := (dist.map (·.2)).sum
    if totalQuestions = 0 then []
    else
      let numSessions := max 1 ((totalQuestions + 25 - 1) / 25)
      let firstTry := sessionsOf dist numSessions
      let packed :=
        if 25 < maxSessionCount firstTry then sessionsOf dist (numSessions + 1)
        else firstTry
      let nonEmpty := packed.filter fun s => !s.isEmpty
      match target with
      | none => nonEmpty
      | some t =>
        if t ≠ 0 ∧ t < nonEmpty.length then
          nonEmpty.take (t - 1) ++ [mergeSessions (nonEmpty.drop (t - 1))]
        else nonEmpty

/-- Number of questions assigned to topic `tid` inside one allocation
list. -/
def countIn (tid : α) (s : List (α × ℕ)) : ℕ :=
  (s.map fun e => if e.1 = tid then e.2 else 0).sum

/-- Number of questions assigned to topic `tid` summed over all
sessions. -/
def outCount (tid : α) (ss : List (List (α × ℕ))) : ℕ :=
  (ss.map (countIn tid)).sum

/-! ### Batch allocation: priority-to-count conversion in
`StudyPlanService.generate_next_batch` (study_plan_service.py lines
326-352). -/

/-- Python `int(q)` truncation toward zero on an exact rational. -/
def pyInt (q : ℚ) : ℤ := if q < 0 then -⌊-q⌋ else ⌊q⌋

/-- Proportional first pass (study_plan_service.py lines 330-335): each
focus topic gets `int(total_questions * priority / total_priority)`
questions, and only topics with a positive count enter the
distribution. -/
def firstPass (focus : List (α × ℚ)) (total : ℕ) (totalPriority : ℚ) :
    List (α × ℕ) :=
  focus.filterMap fun e =>
    let n := (pyInt ((total : ℚ) * (e.2 / totalPriority))).toNat
    if n = 0 then none else some (e.1, n)

/-- One iteration of the remainder loop (study_plan_service.py lines
344-349): remainder unit `i` goes to focus topic `i` when that topic is
present in the distribution; `focus.get? i = none` models the
`i < len(focus_topics)` guard. -/
def batchStep (focus : List (α × ℚ)) (d : List (α × ℕ)) (i : ℕ) :
    List (α × ℕ) :=
  match focus.get? i with
  | some e => if hasKey d e.1 then incrementFirst d e.1 1 else d
  | none => d

/-- Priority-to-count conversion of `StudyPlanService.generate_next_batch`
(study_plan_service.py lines 326-352): proportional floor shares, then the
rounding remainder distributed one unit at a time to the highest-priority
topics in list order.  When the total priority is not positive the
distribution stays empty. -/
def batchDistribution (focus : List (α × ℚ)) (total : ℕ) : List (α × ℕ) :=
  let totalPriority := (focus.map (·.2)).sum
  if 0 < totalPriority then
    let d1 := firstPass focus total totalPriority
    let distributed := (d1.map (·.2)).sum
    let remainder := total - distributed
    (List.range remainder).foldl (batchStep focus) d1
  else []

/-! ### AdaptiveExamEngine: `MockExamService._convert_to_scaled_score`
(mock_exam_service.py lines 429-449). -/

/-- Python `round(q)` on a float: round half to even. -/
def roundHalfEven (q : ℚ) : ℤ :=
  if q - ⌊q⌋ < 1/2 then ⌊q⌋
  else if 1/2 < q - ⌊q⌋ then ⌊q⌋ + 1
  else if ⌊q⌋ % 2 = 0 then ⌊q⌋ else ⌊q⌋ + 1

/-- `MockExamService._convert_to_scaled_score` (mock_exam_service.py lines
429-449): early return 200 for a non-positive raw score (this guard also
keeps the division away from `total_questions = 0`), linear scale to
200-800, round to the nearest 10, clamp. -/
def convertToScaledScore (rawScore totalQuestions : ℤ) : ℤ :=
  if rawScore ≤ 0 then 200
  else
    let percentage : ℚ := (rawScore : ℚ) / (totalQuestions : ℚ)
    let scaled : ℚ := 200 + percentage * 600
    let rounded : ℤ := roundHalfEven (scaled / 10) * 10
    min 800 (max 200 rounded)

/-- Modelled from the spec sentence of claim C7, for the refinement
comparison only: `scaled = clamp(round((rawCorrect/totalSectionQuestions ×
600 + 200)/10)×10, 200, 800)`. -/
def specScaledScore (rawCorrect totalSectionQuestions : ℤ) : ℤ :=
  min 800 (max 200
    (roundHalfEven
      (((rawCorrect : ℚ) / (totalSectionQuestions : ℚ) * 600 + 200) / 10)
      * 10))

/-! ## Theorems -/

/-- Helper: any value clamped by `min 0.99 (max 0.01 _)` lies in
[0.01, 0.99]. -/
theorem clamp_bounds (x : ℚ) :
    0.01 ≤ min 0.99 (max 0.01 x) ∧ min 0.99 (max 0.01 x) ≤ 0.99 :=
  ⟨le_min (by norm_num) (le_max_left _ _), min_le_left _ _⟩

/-- Helper: rounding to 4 decimals keeps a value of [0.01, 0.99] inside
[0.01, 0.99] (both endpoints are exact 4-decimal values and rounding is
monotone). -/
theorem round4_mem_bounds (q : ℚ) (h1 : 0.01 ≤ q) (h2 : q ≤ 0.99) :
    0.01 ≤ round4 q ∧ round4 q ≤ 0.99 := by
  have hlo : (100 : ℤ) ≤ round (q * 10000) := by
    rw [round_eq]
    refine Int.le_floor.mpr ?_
    push_cast
    nlinarith
  have hhi : round (q * 10000) ≤ 9900 := by
    rw [round_eq]
    refine Int.floor_le_iff.mpr ?_
    push_cast
    nlinarith
  have hlo' : (100 : ℚ) ≤ (round (q * 10000) : ℚ) := by exact_mod_cast hlo
  have hhi' : ((round (q * 10000) : ℤ) : ℚ) ≤ 9900 := by exact_mod_cast hhi
  unfold round4
  constructor
  · rw [show (0.01 : ℚ) = 100 / 10000 by norm_num]
    exact div_le_div_of_nonneg_right hlo' (by norm_num)
  · rw [show (0.99 : ℚ) = 9900 / 10000 by norm_num]
    exact div_le_div_of_nonneg_right hhi' (by norm_num)

/-- Helper: the clamped new mastery of any update lies in [0.01, 0.99],
with no assumption on the inputs. -/
theorem newMastery_bounds (p pT pG pS : ℚ) (c : Bool) :
    0.01 ≤ (updateMastery p pT pG pS c).newMastery ∧
      (updateMastery p pT pG pS c).newMastery ≤ 0.99 := by
  simp only [updateMastery]
  exact clamp_bounds _

/-- C1: for a mastery update with prior p in [0.01, 0.99] and parameter
probabilities in [0, 1], when both Bayesian denominators are nonzero the
evidence posterior equals p(1-pS)/(p(1-pS)+(1-p)pG) on a correct answer
and p·pS/(p·pS+(1-p)(1-pG)) on an incorrect answer, the new mastery is the
posterior advanced by the learning step and clamped to [0.01, 0.99], and
the velocity equals new mastery minus p.  (The service additionally rounds
the reported copies of these values to 4 decimal places for storage and
display; see `updateRecord`.) -/
theorem bkt_update_formula (p pT pG pS : ℚ)
    (hp1 : 0.01 ≤ p) (hp2 : p ≤ 0.99)
    (hG1 : 0 ≤ pG) (hG2 : pG ≤ 1) (hS1 : 0 ≤ pS) (hS2 : pS ≤ 1)
    (hdc : p * (1 - pS) + (1 - p) * pG ≠ 0)
    (hdi : p * pS + (1 - p) * (1 - pG) ≠ 0) :
    ((updateMastery p pT pG pS true).pEvidence
        = p * (1 - pS) / (p * (1 - pS) + (1 - p) * pG)
      ∧ (updateMastery p pT pG pS true).newMastery
        = min 0.99 (max 0.01 ((updateMastery p pT pG pS true).pEvidence
            + (1 - (updateMastery p pT pG pS true).pEvidence) * pT))
      ∧ (updateMastery p pT pG pS true).velocity
        = (updateMastery p pT pG pS true).newMastery - p)
    ∧ ((updateMastery p pT pG pS false).pEvidence
        = p * pS / (p * pS + (1 - p) * (1 - pG))
      ∧ (updateMastery p pT pG pS false).newMastery
        = min 0.99 (max 0.01 ((updateMastery p pT pG pS false).pEvidence
            + (1 - (updateMastery p pT pG pS false).pEvidence) * pT))
      ∧ (updateMastery p pT pG pS false).velocity
        = (updateMastery p pT pG pS false).newMastery - p) := by
  have hdc0 : 0 ≤ p * (1 - pS) + (1 - p) * pG := by
    have := mul_nonneg (le_trans (by norm_num) hp1) (by linarith : (0:ℚ) ≤ 1 - pS)
    have := mul_nonneg (by linarith : (0:ℚ) ≤ 1 - p) hG1
    linarith
  have hdi0 : 0 ≤ p * pS + (1 - p) * (1 - pG) := by
    have := mul_nonneg (le_trans (by norm_num) hp1) hS1
    have := mul_nonneg (by linarith : (0:ℚ) ≤ 1 - p) (by linarith : (0:ℚ) ≤ 1 - pG)
    linarith
  have hdc' : 0 < p * (1 - pS) + (1 - p) * pG := lt_of_le_of_ne hdc0 (Ne.symm hdc)
  have hdi' : 0 < p * pS + (1 - p) * (1 - pG) := lt_of_le_of_ne hdi0 (Ne.symm hdi)
  simp only [updateMastery, if_pos hdc', if_pos hdi', if_true, if_false,
    Bool.false_eq_true, ite_true, ite_false]
  exact ⟨⟨trivial, trivial, trivial⟩, ⟨trivial, trivial, trivial⟩⟩

/-- C1 witness: the default BKT state (p = 0.25, pT = 0.10, pG = 0.25,
pS = 0.10) satisfies every hypothesis, and the posterior formula holds
there. -/
theorem bkt_update_formula_witness :
    (0.25 : ℚ) * (1 - 0.1) + (1 - 0.25) * 0.25 ≠ 0 ∧
    (updateMastery 0.25 0.1 0.25 0.1 true).pEvidence
      = 0.25 * (1 - 0.1) / (0.25 * (1 - 0.1) + (1 - 0.25) * 0.25) :=
  ⟨by norm_num,
    (bkt_update_formula 0.25 0.1 0.25 0.1 (by norm_num) (by norm_num)
      (by norm_num) (by norm_num) (by norm_num) (by norm_num)
      (by norm_num) (by norm_num)).1.1⟩

/-- C2: for any correctness value and any record whose stored mastery is
in [0.01, 0.99] and whose parameters are in [0, 1], the mastery stored
back by the update (rounded to 4 decimals) and the unrounded new mastery
both lie in [0.01, 0.99]; in particular mastery never reaches exactly 0 or
1. -/
theorem mastery_bounds_after_update (r : MasteryRecord) (c : Bool)
    (hp1 : 0.01 ≤ r.masteryProbability) (hp2 : r.masteryProbability ≤ 0.99)
    (hT1 : 0 ≤ r.learnRate) (hT2 : r.learnRate ≤ 1)
    (hG1 : 0 ≤ r.guessProbability) (hG2 : r.guessProbability ≤ 1)
    (hS1 : 0 ≤ r.slipProbability) (hS2 : r.slipProbability ≤ 1) :
    (0.01 ≤ (updateRecord r c).1.masteryProbability
      ∧ (updateRecord r c).1.masteryProbability ≤ 0.99)
    ∧ (0.01 ≤ (updateMastery r.masteryProbability r.learnRate
          r.guessProbability r.slipProbability c).newMastery
      ∧ (updateMastery r.masteryProbability r.learnRate
          r.guessProbability r.slipProbability c).newMastery ≤ 0.99) := by
  have hb := newMastery_bounds r.masteryProbability r.learnRate
    r.guessProbability r.slipProbability c
  refine ⟨?_, hb⟩
  show 0.01 ≤ round4 _ ∧ round4 _ ≤ 0.99
  exact round4_mem_bounds _ hb.1 hb.2

/-- C2 witness: the default initial record (mastery 0.25, parameters
0.10/0.25/0.10) satisfies every hypothesis and stays inside the
bounds. -/
theorem mastery_bounds_after_update_witness :
    (0.01 : ℚ) ≤ 0.25 ∧
    (0.01 ≤ (updateRecord
        (MasteryRecord.mk 0.25 0.1 0.25 0.1 0 0 0 false) true).1.masteryProbability
      ∧ (updateRecord
        (MasteryRecord.mk 0.25 0.1 0.25 0.1 0 0 0 false) true).1.masteryProbability ≤ 0.99) :=
  ⟨by norm_num,
    (mastery_bounds_after_update (MasteryRecord.mk 0.25 0.1 0.25 0.1 0 0 0 false)
      true (by norm_num) (by norm_num) (by norm_num) (by norm_num)
      (by norm_num) (by norm_num) (by norm_num) (by norm_num)).1⟩

/-- C5 counterexample: with p = 1/2, pT = 1/10, pG = 0, pS = 1 and a
correct answer the Bayesian denominator is zero, yet the update moves
mastery from 1/2 to 11/20 — the learning step still applies after the
zero-denominator guard, so mastery is not unchanged. -/
theorem degenerate_counterexample :
    (1/2 : ℚ) * (1 - 1) + (1 - 1/2) * 0 = 0 ∧
    (updateMastery (1/2) (1/10) 0 1 true).newMastery = 11/20 ∧
    (11/20 : ℚ) ≠ 1/2 := by
  norm_num [updateMastery]

/-- C5 amended: when the Bayesian denominator for the observed correctness
is zero, the guard leaves the evidence posterior at p, and the update then
still applies the learning step and the clamp, so the new mastery equals
clamp(p + (1-p)·pT, 0.01, 0.99) — not p in general. -/
theorem bkt_degenerate_guard (p pT pG pS : ℚ) (c : Bool)
    (hc : c = true → p * (1 - pS) + (1 - p) * pG = 0)
    (hi : c = false → p * pS + (1 - p) * (1 - pG) = 0) :
    (updateMastery p pT pG pS c).pEvidence = p ∧
    (updateMastery p pT pG pS c).newMastery
      = min 0.99 (max 0.01 (p + (1 - p) * pT)) := by
  cases c with
  | true =>
    have h := hc rfl
    simp only [updateMastery, h, if_true, ite_true]
    rw [if_neg (lt_irrefl 0)]
    exact ⟨rfl, rfl⟩
  | false =>
    have h := hi rfl
    simp only [updateMastery, h, Bool.false_eq_true, ite_false]
    rw [if_neg (lt_irrefl 0)]
    exact ⟨rfl, rfl⟩

/-- C5 amended witness: at p = 1/2, pT = 1/10, pG = 0, pS = 1 with a
correct answer the denominator is zero and the amended description of the
update holds. -/
theorem bkt_degenerate_guard_witness :
    ((1/2 : ℚ) * (1 - 1) + (1 - 1/2) * 0 = 0) ∧
    ((updateMastery (1/2) (1/10) 0 1 true).pEvidence = 1/2 ∧
      (updateMastery (1/2) (1/10) 0 1 true).newMastery
        = min 0.99 (max 0.01 (1/2 + (1 - 1/2) * (1/10)))) :=
  ⟨by norm_num,
    bkt_degenerate_guard (1/2) (1/10) 0 1 true (fun _ => by norm_num)
      (fun h => by simp at h)⟩

/-- C8 counterexample: a record that is already flagged as in plateau
(plateau_flag true, 20 attempts) and stays in plateau after a further
update (mastery pinned at 0.99, velocity 0) still gets a fresh
plateau_detected event — the service emits the event on every plateau
update, not only on the first transition. -/
theorem plateau_repeat_counterexample :
    (MasteryRecord.mk (99/100) (1/10) (1/4) (1/10) 20 15 0 true).plateauFlag
      = true ∧
    (updateRecord (MasteryRecord.mk (99/100) (1/10) (1/4) (1/10) 20 15 0 true)
        true).1.plateauFlag = true ∧
    EventType.plateauDetected ∈
      (updateRecord (MasteryRecord.mk (99/100) (1/10) (1/4) (1/10) 20 15 0 true)
        true).2 := by
  refine ⟨rfl, ?_, ?_⟩ <;>
    norm_num [updateRecord, updateMastery, round4]

/-- C8 amended: a plateau_detected event is emitted exactly when the
freshly computed plateau condition holds — total attempts after the
increment at least 10 and absolute velocity below 0.02 — regardless of
whether the record was already flagged as in plateau, so repeat events are
emitted on every plateau update. -/
theorem plateau_event_iff (r : MasteryRecord) (c : Bool) :
    EventType.plateauDetected ∈ (updateRecord r c).2 ↔
      (10 ≤ r.totalAttempts + 1 ∧
        |(updateMastery r.masteryProbability r.learnRate r.guessProbability
            r.slipProbability c).velocity| < 0.02) := by
  simp only [updateRecord, List.mem_append, List.mem_singleton, List.mem_cons,
    List.not_mem_nil]
  by_cases hpl : 10 ≤ r.totalAttempts + 1 ∧
      |(updateMastery r.masteryProbability r.learnRate r.guessProbability
          r.slipProbability c).velocity| < 0.02
  · simp [hpl]
  · simp [hpl]

/-- C9 counterexample: with the valid probability parameters pT = 0,
pG = 1, pS = 1 and prior p = 1/2, a correct answer drives mastery to the
lower clamp 0.01 while an incorrect answer drives it to the upper clamp
0.99 — the correct answer ends strictly below the incorrect one. -/
theorem monotone_evidence_counterexample :
    (updateMastery (1/2) 0 1 1 true).newMastery
      < (updateMastery (1/2) 0 1 1 false).newMastery := by
  norm_num [updateMastery]

/-- Helper for C9: under the non-degeneracy condition pG + pS ≤ 1 the
evidence posterior after a correct answer is at least the posterior after
an incorrect answer, including the zero-denominator guard cases. -/
theorem evidence_le (p pT pG pS : ℚ)
    (hp1 : 0.01 ≤ p) (hp2 : p ≤ 0.99)
    (hG : 0 ≤ pG) (hS : 0 ≤ pS) (hGS : pG + pS ≤ 1) :
    (updateMastery p pT pG pS false).pEvidence
      ≤ (updateMastery p pT pG pS true).pEvidence := by
  have hp0 : 0 < p := by linarith
  have hp3 : p < 1 := by linarith
  have hS1 : pS ≤ 1 := by linarith
  have hG1 : pG ≤ 1 := by linarith
  have hdc0 : 0 ≤ p * (1 - pS) + (1 - p) * pG := by
    have := mul_nonneg hp0.le (by linarith : (0:ℚ) ≤ 1 - pS)
    have := mul_nonneg (by linarith : (0:ℚ) ≤ 1 - p) hG
    linarith
  have hdi0 : 0 ≤ p * pS + (1 - p) * (1 - pG) := by
    have := mul_nonneg hp0.le hS
    have := mul_nonneg (by linarith : (0:ℚ) ≤ 1 - p) (by linarith : (0:ℚ) ≤ 1 - pG)
    linarith
  simp only [updateMastery, if_true, ite_true, Bool.false_eq_true, ite_false]
  by_cases hdc : p * (1 - pS) + (1 - p) * pG > 0
  · by_cases hdi : p * pS + (1 - p) * (1 - pG) > 0
    · rw [if_pos hdc, if_pos hdi]
      rw [div_le_div_iff₀ hdi hdc]
      have key : p * (1 - pS) * (p * pS + (1 - p) * (1 - pG))
          - p * pS * (p * (1 - pS) + (1 - p) * pG)
          = p * (1 - p) * (1 - pG - pS) := by ring
      have hnn : 0 ≤ p * (1 - p) * (1 - pG - pS) :=
        mul_nonneg (mul_nonneg hp0.le (by linarith)) (by linarith)
      linarith
    · rw [if_pos hdc, if_neg hdi]
      have hdi' : p * pS + (1 - p) * (1 - pG) = 0 :=
        le_antisymm (not_lt.mp hdi) hdi0
      have hS0 : pS = 0 := by
        have h1 : 0 ≤ p * pS := mul_nonneg hp0.le hS
        have h2 : 0 ≤ (1 - p) * (1 - pG) :=
          mul_nonneg (by linarith) (by linarith)
        have : p * pS = 0 := by linarith
        rcases mul_eq_zero.mp this with h | h
        · exact absurd h hp0.ne'
        · exact h
      have hG1' : pG = 1 := by
        have h1 : 0 ≤ p * pS := mul_nonneg hp0.le hS
        have h2 : (1 - p) * (1 - pG) = 0 := by nlinarith
        rcases mul_eq_zero.mp h2 with h | h
        · exact absurd h (by linarith)
        · linarith
      subst hS0 hG1'
      have h3 : p * (1 - 0) + (1 - p) * 1 = 1 := by ring
      rw [h3, div_one]
      nlinarith
  · have hdc' : p * (1 - pS) + (1 - p) * pG = 0 :=
      le_antisymm (not_lt.mp hdc) hdc0
    have hS1' : pS = 1 := by
      have h1 : 0 ≤ p * (1 - pS) := mul_nonneg hp0.le (by linarith)
      have h2 : 0 ≤ (1 - p) * pG := mul_nonneg (by linarith) hG
      have : p * (1 - pS) = 0 := by linarith
      rcases mul_eq_zero.mp this with h | h
      · exact absurd h hp0.ne'
      · linarith
    have hG0 : pG = 0 := by
      have h1 : 0 ≤ p * (1 - pS) := mul_nonneg hp0.le (by linarith)
      have h2 : (1 - p) * pG = 0 := by nlinarith
      rcases mul_eq_zero.mp h2 with h | h
      · exact absurd h (by linarith)
      · exact h
    rw [if_neg hdc]
    subst hS1' hG0
    have h1 : p * 1 + (1 - p) * (1 - 0) = 1 := by ring
    rw [h1]
    by_cases hdi : (0:ℚ) < 1
    · rw [if_pos hdi, div_one]
      nlinarith
    · norm_num at hdi

/-- C9 amended: for parameter probabilities in [0, 1] satisfying the BKT
non-degeneracy condition pG + pS ≤ 1, and any prior p in [0.01, 0.99], the
post-update mastery after a correct answer is at least the post-update
mastery after an incorrect answer from the same prior. -/
theorem monotone_evidence (p pT pG pS : ℚ)
    (hp1 : 0.01 ≤ p) (hp2 : p ≤ 0.99)
    (hT1 : 0 ≤ pT) (hT2 : pT ≤ 1)
    (hG : 0 ≤ pG) (hS : 0 ≤ pS) (hGS : pG + pS ≤ 1) :
    (updateMastery p pT pG pS false).newMastery
      ≤ (updateMastery p pT pG pS true).newMastery := by
  have hev := evidence_le p pT pG pS hp1 hp2 hG hS hGS
  have step : (updateMastery p pT pG pS false).pEvidence
      + (1 - (updateMastery p pT pG pS false).pEvidence) * pT
      ≤ (updateMastery p pT pG pS true).pEvidence
      + (1 - (updateMastery p pT pG pS true).pEvidence) * pT := by
    nlinarith
  show min 0.99 (max 0.01 _) ≤ min 0.99 (max 0.01 _)
  exact min_le_min (le_refl _) (max_le_max (le_refl _) step)

/-- C9 amended witness: the default parameters (pT = 0.10, pG = 0.25,
pS = 0.10, prior 0.25) satisfy the amended hypotheses and the ordering
holds there. -/
theorem monotone_evidence_witness :
    (0.25 : ℚ) + 0.1 ≤ 1 ∧
    (updateMastery 0.25 0.1 0.25 0.1 false).newMastery
      ≤ (updateMastery 0.25 0.1 0.25 0.1 true).newMastery :=
  ⟨by norm_num,
    monotone_evidence 0.25 0.1 0.25 0.1 (by norm_num) (by norm_num)
      (by norm_num) (by norm_num) (by norm_num) (by norm_num) (by norm_num)⟩

/-! ### SessionPacker theorems (C3, C4) -/

theorem sum_map_add_nat (l : List ℕ) (f g : ℕ → ℕ) :
    (l.map fun i => f i + g i).sum = (l.map f).sum + (l.map g).sum := by
  induction l with
  | nil => simp
  | cons a t ih => simp [ih]; omega

theorem sum_range_ite (n r : ℕ) :
    ((List.range n).map fun i => if i < r then 1 else 0).sum = min r n := by
  induction n with
  | zero => simp
  | succ n ih =>
      rw [List.range_succ, List.map_append, List.sum_append]
      simp only [List.map_cons, List.map_nil, List.sum_cons, List.sum_nil, ih]
      by_cases h : n < r
      · simp [h]; omega
      · simp [h]; omega

theorem sum_map_const_nat (l : List ℕ) (k : ℕ) :
    (l.map fun _ => k).sum = l.length * k := by
  induction l with
  | nil => simp
  | cons a t ih => simp [ih]; ring

theorem allocFor_total (c n : ℕ) (hn : 0 < n) :
    ((List.range n).map (allocFor c n)).sum = c := by
  unfold allocFor
  rw [sum_map_add_nat, sum_map_const_nat, sum_range_ite, List.length_range]
  rw [Nat.min_def]
  split
  · exact Nat.div_add_mod c n
  · next h => exact absurd (Nat.mod_lt c hn).le h

theorem countIn_append (tid : α) (a b : List (α × ℕ)) :
    countIn tid (a ++ b) = countIn tid a + countIn tid b := by
  simp [countIn]

theorem countIn_sessionAt_cons (tid : α) (e : α × ℕ) (d : List (α × ℕ))
    (n idx : ℕ) :
    countIn tid (sessionAt (e :: d) n idx)
      = (if e.1 = tid then allocFor e.2 n idx else 0)
        + countIn tid (sessionAt d n idx) := by
  by_cases hz : e.2 = 0
  · simp [sessionAt, List.filterMap_cons, hz, allocFor]
  · by_cases hq : allocFor e.2 n idx = 0
    · simp [sessionAt, List.filterMap_cons, hz, hq]
    · simp [sessionAt, List.filterMap_cons, hz, hq, countIn]
theorem outCount_sessionsOf (tid : α) (dist : List (α × ℕ)) (n : ℕ)
    (hn : 0 < n) :
    outCount tid (sessionsOf dist n) = countIn tid dist := by
  induction dist with
  | nil =>
      unfold outCount sessionsOf
      rw [List.map_map]
      refine List.sum_eq_zero ?_
      intro x hx
      rw [List.mem_map] at hx
      obtain ⟨i, _, rfl⟩ := hx
      simp [Function.comp, sessionAt, countIn]
  | cons e d ih =>
      have hsplit : ∀ idx, countIn tid (sessionAt (e :: d) n idx)
          = (if e.1 = tid then allocFor e.2 n idx else 0)
            + countIn tid (sessionAt d n idx) :=
        fun idx => countIn_sessionAt_cons tid e d n idx
      unfold outCount sessionsOf
      rw [List.map_map]
      have : ((List.range n).map (countIn tid ∘ sessionAt (e :: d) n)).sum
          = ((List.range n).map fun idx =>
              (if e.1 = tid then allocFor e.2 n idx else 0)
                + countIn tid (sessionAt d n idx)).sum := by
        congr 1
        exact List.map_congr_left (fun idx _ => hsplit idx)
      rw [this, sum_map_add_nat]
      have h2 : ((List.range n).map fun idx =>
          if e.1 = tid then allocFor e.2 n idx else 0).sum
          = if e.1 = tid then e.2 else 0 := by
        by_cases he : e.1 = tid
        · simp only [he, if_true, ite_true]
          exact allocFor_total e.2 n hn
        · simp [he]
      rw [h2]
      have h3 : ((List.range n).map fun idx =>
          countIn tid (sessionAt d n idx)).sum = countIn tid d := by
        have := ih
        unfold outCount sessionsOf at this
        rw [List.map_map] at this
        exact this
      rw [h3]
      simp [countIn]

theorem outCount_filter_nonempty (tid : α) (ss : List (List (α × ℕ))) :
    outCount tid (ss.filter fun s => !s.isEmpty) = outCount tid ss := by
  induction ss with
  | nil => simp [outCount]
  | cons s t ih =>
      by_cases hs : s.isEmpty
      · have hz : countIn tid s = 0 := by
          rw [List.isEmpty_iff] at hs
          simp [hs, countIn]
        simp [outCount, List.filter_cons, hs, hz] at ih ⊢
        exact ih
      · simp only [outCount, List.filter_cons, hs, Bool.not_false,
          List.map_cons, List.sum_cons] at ih ⊢
        simp only [Bool.not_eq_true] at hs
        simp [hs, outCount] at ih ⊢
        omega

theorem countIn_incrementFirst (tid t : α) (q : ℕ) (d : List (α × ℕ))
    (hk : hasKey d t = true) :
    countIn tid (incrementFirst d t q)
      = countIn tid d + (if t = tid then q else 0) := by
  induction d with
  | nil => simp [hasKey] at hk
  | cons e rest ih =>
      by_cases he : e.1 = t
      · simp only [incrementFirst, he, if_true, ite_true, countIn,
          List.map_cons, List.sum_cons]
        by_cases ht : t = tid
        · simp [ht]; omega
        · have : ¬ e.1 = tid := by rw [he]; exact ht
          simp [ht, this, he]
      · have hk' : hasKey rest t = true := by
          simp only [hasKey, List.any_cons] at hk
          simpa [hasKey, he] using hk
        simp only [incrementFirst, he, ite_false, if_false]
        simp only [countIn, List.map_cons, List.sum_cons] at ih ⊢
        rw [ih hk']
        omega

theorem countIn_mergeItem (tid : α) (acc : List (α × ℕ)) (e : α × ℕ) :
    countIn tid (mergeItem acc e)
      = countIn tid acc + (if e.1 = tid then e.2 else 0) := by
  unfold mergeItem
  by_cases hk : hasKey acc e.1
  · rw [if_pos hk, countIn_incrementFirst tid e.1 e.2 acc hk]
  · rw [if_neg hk, countIn_append]
    simp [countIn]

theorem countIn_foldl_mergeItem (tid : α) (s : List (α × ℕ)) :
    ∀ acc, countIn tid (s.foldl mergeItem acc)
      = countIn tid acc + countIn tid s := by
  induction s with
  | nil => intro acc; simp [countIn]
  | cons e rest ih =>
      intro acc
      rw [List.foldl_cons, ih (mergeItem acc e), countIn_mergeItem]
      simp [countIn]
      omega

theorem countIn_mergeSessions (tid : α) (ss : List (List (α × ℕ))) :
    countIn tid (mergeSessions ss) = outCount tid ss := by
  unfold mergeSessions
  have main : ∀ acc, countIn tid (ss.foldl (fun acc s => s.foldl mergeItem acc) acc)
      = countIn tid acc + outCount tid ss := by
    induction ss with
    | nil => intro acc; simp [outCount]
    | cons s t ih =>
        intro acc
        rw [List.foldl_cons, ih (s.foldl mergeItem acc), countIn_foldl_mergeItem]
        simp [outCount]
        omega
  have := main []
  simpa [countIn] using this

theorem outCount_append (tid : α) (a b : List (List (α × ℕ))) :
    outCount tid (a ++ b) = outCount tid a + outCount tid b := by
  simp [outCount]

theorem outCount_mergeTail (tid : α) (ss : List (List (α × ℕ))) (k : ℕ) :
    outCount tid (ss.take k ++ [mergeSessions (ss.drop k)])
      = outCount tid ss := by
  rw [outCount_append]
  have h1 : outCount tid [mergeSessions (ss.drop k)]
      = countIn tid (mergeSessions (ss.drop k)) := by simp [outCount]
  rw [h1, countIn_mergeSessions, ← outCount_append, List.take_append_drop]

theorem countIn_le_total (tid : α) (d : List (α × ℕ)) :
    countIn tid d ≤ (d.map (·.2)).sum := by
  induction d with
  | nil => simp [countIn]
  | cons e rest ih =>
      simp only [countIn, List.map_cons, List.sum_cons] at ih ⊢
      by_cases he : e.1 = tid
      · simp [he]; omega
      · simp [he]; omega

/-- C3: the session packer conserves questions — for every per-section
input allocation, every optional target session count (merge or no
merge), and every topic, the topic's questions summed over all output
sessions equal its questions in the input allocation. -/
theorem packer_conservation (dist : List (α × ℕ)) (target : Option ℕ)
    (tid : α) :
    outCount tid (createSectionSessions dist target) = countIn tid dist := by
  unfold createSectionSessions
  by_cases h1 : dist.isEmpty
  · rw [if_pos h1]
    rw [List.isEmpty_iff] at h1
    subst h1
    simp [outCount, countIn]
  · rw [if_neg h1]
    simp only []
    by_cases h2 : (dist.map (·.2)).sum = 0
    · rw [if_pos h2]
      have hle := countIn_le_total tid dist
      rw [h2] at hle
      simp [outCount]
      omega
    · rw [if_neg h2]
      have hn : 0 < max 1 (((dist.map (·.2)).sum + 25 - 1) / 25) :=
        lt_of_lt_of_le one_pos (le_max_left _ _)
      set n := max 1 (((dist.map (·.2)).sum + 25 - 1) / 25) with hn_def
      have hpacked : ∀ m, 0 < m →
          outCount tid ((sessionsOf dist m).filter fun s => !s.isEmpty)
            = countIn tid dist := by
        intro m hm
        rw [outCount_filter_nonempty, outCount_sessionsOf tid dist m hm]
      by_cases h3 : 25 < maxSessionCount (sessionsOf dist n)
      · rw [if_pos h3]
        have hres := hpacked (n + 1) (Nat.succ_pos n)
        cases target with
        | none => exact hres
        | some t =>
            dsimp only
            by_cases h4 : t ≠ 0 ∧ t < ((sessionsOf dist (n + 1)).filter
                fun s => !s.isEmpty).length
            · rw [if_pos h4, outCount_mergeTail]
              exact hres
            · rw [if_neg h4]
              exact hres
      · rw [if_neg h3]
        have hres := hpacked n hn
        cases target with
        | none => exact hres
        | some t =>
            dsimp only
            by_cases h4 : t ≠ 0 ∧ t < ((sessionsOf dist n).filter
                fun s => !s.isEmpty).length
            · rw [if_pos h4, outCount_mergeTail]
              exact hres
            · rw [if_neg h4]
              exact hres

/-- C4 failing input: an allocation of 26 topics with 2 questions each
(52 questions total).  The packer first tries 3 sessions, sees a session
of 26 questions, retries once with 4 sessions — and the first two sessions
still hold 26 questions each, exceeding MAX_PER_SESSION = 25.  The
single-retry loop contradicts the function's own docstring ("Sessions are
capped at 25 questions max"). -/
theorem packer_cap_violation :
    (createSectionSessions (((List.range 26).map fun i => (i, 2))
        : List (ℕ × ℕ)) none).map sessionCount = [26, 26] ∧ 25 < 26 := by
  constructor
  · decide
  · decide

/-! ### AdaptiveExamEngine theorems (C7, C10) -/

/-- Helper: round-half-even never exceeds an integer upper bound of its
argument. -/
theorem roundHalfEven_le (q : ℚ) (m : ℤ) (h : q ≤ m) : roundHalfEven q ≤ m := by
  have hf : ⌊q⌋ ≤ m := Int.floor_le_iff.mpr (by linarith)
  unfold roundHalfEven
  by_cases h1 : q - (⌊q⌋:ℚ) < 1/2
  · rw [if_pos h1]; exact hf
  · have hsucc : ⌊q⌋ + 1 ≤ m := by
      rcases lt_or_eq_of_le hf with h2 | h2
      · omega
      · exfalso
        have h3 : (⌊q⌋ : ℚ) + 1/2 ≤ q := by linarith [not_lt.mp h1]
        rw [h2] at h3
        have h4 : (m : ℚ) < q := by linarith
        have h5 : q ≤ (m : ℚ) := by exact_mod_cast h
        linarith
    rw [if_neg h1]
    by_cases h2 : 1/2 < q - (⌊q⌋:ℚ)
    · rw [if_pos h2]; exact hsucc
    · rw [if_neg h2]
      by_cases h3 : ⌊q⌋ % 2 = 0
      · rw [if_pos h3]; exact hf
      · rw [if_neg h3]; exact hsucc

/-- C7 amended: for every raw score and positive section question total,
the conversion returns clamp(round((raw/total × 600 + 200)/10)×10, 200,
800) — `specScaledScore` is that formula transcribed from the spec
sentence — and the Scenario E input 40 out of 54 yields exactly 640 (the
spec's displayed value 650 is off by one rounding step: 644.4 rounds to
640). -/
theorem scaled_score_formula (rawScore totalQuestions : ℤ)
    (ht : 0 < totalQuestions) :
    convertToScaledScore rawScore totalQuestions
      = specScaledScore rawScore totalQuestions ∧
    convertToScaledScore 40 54 = 640 := by
  constructor
  · unfold convertToScaledScore specScaledScore
    by_cases hr : rawScore ≤ 0
    · rw [if_pos hr]
      have hpct : (rawScore : ℚ) / (totalQuestions : ℚ) ≤ 0 := by
        apply div_nonpos_of_nonpos_of_nonneg
        · exact_mod_cast hr
        · positivity
      have harg : ((rawScore : ℚ) / (totalQuestions : ℚ) * 600 + 200) / 10 ≤ 20 := by
        nlinarith
      have hround : roundHalfEven (((rawScore : ℚ) / (totalQuestions : ℚ) * 600 + 200) / 10) ≤ 20 :=
        roundHalfEven_le _ 20 harg
      have : max 200 (roundHalfEven (((rawScore : ℚ) / (totalQuestions : ℚ) * 600 + 200) / 10) * 10) = 200 :=
        max_eq_left (by omega)
      rw [this]
      norm_num
    · rw [if_neg hr]
      have harg : (200 + (rawScore : ℚ) / (totalQuestions : ℚ) * 600) / 10
          = ((rawScore : ℚ) / (totalQuestions : ℚ) * 600 + 200) / 10 := by ring
      simp only [harg]
  · norm_num [convertToScaledScore, roundHalfEven]

/-- C7 counterexample: a section raw score of 40 out of 54 yields a
scaled score of exactly 640, not 650 as the scenario in the claim
states. -/
theorem scaled_scenario_counterexample :
    convertToScaledScore 40 54 = 640 ∧ (640 : ℤ) ≠ 650 := by
  norm_num [convertToScaledScore, roundHalfEven]

/-- C10: for every raw score at most 0 and every total (including 0), the
conversion returns exactly 200: the early-return guard precedes the
division, so the quotient raw/total is never formed for non-positive raw
scores. -/
theorem convert_nonpositive_raw (rawScore totalQuestions : ℤ)
    (hr : rawScore ≤ 0) :
    convertToScaledScore rawScore totalQuestions = 200 := by
  unfold convertToScaledScore
  rw [if_pos hr]

/-- C7 amended witness: at raw = 40, total = 54 the hypothesis holds, the
code agrees with the spec formula, and the result is 640. -/
theorem scaled_score_formula_witness :
    (0 : ℤ) < 54 ∧
    (convertToScaledScore 40 54 = specScaledScore 40 54 ∧
      convertToScaledScore 40 54 = 640) :=
  ⟨by decide, scaled_score_formula 40 54 (by decide)⟩

/-- C10 witness: raw = 0 with total = 0 hits the guard and returns 200
without dividing by zero. -/
theorem convert_nonpositive_raw_witness :
    (0 : ℤ) ≤ 0 ∧ convertToScaledScore 0 0 = 200 :=
  ⟨by decide, convert_nonpositive_raw 0 0 (by decide)⟩

/-! ### Batch-allocation theorems (C6) -/

theorem pyInt_of_nonneg (q : ℚ) (h : 0 ≤ q) : pyInt q = ⌊q⌋ := by
  unfold pyInt
  rw [if_neg (not_lt.mpr h)]

theorem hasKey_incrementFirst (d : List (α × ℕ)) (t x : α) (q : ℕ) :
    hasKey (incrementFirst d t q) x = hasKey d x := by
  induction d with
  | nil => simp [incrementFirst]
  | cons e rest ih =>
      by_cases he : e.1 = t
      · simp [incrementFirst, he, hasKey]
      · simp only [incrementFirst, he, ite_false, if_false]
        simp [hasKey, List.any_cons] at ih ⊢
        rw [ih]

theorem hasKey_batchStep (focus : List (α × ℚ)) (d : List (α × ℕ))
    (i : ℕ) (x : α) :
    hasKey (batchStep focus d i) x = hasKey d x := by
  unfold batchStep
  cases focus.get? i with
  | none => rfl
  | some e =>
      by_cases hk : hasKey d e.1
      · simp [hk, hasKey_incrementFirst]
      · simp [hk]

theorem hasKey_foldl_batchStep (focus : List (α × ℚ)) (x : α) :
    ∀ (is : List ℕ) (d : List (α × ℕ)),
      hasKey (is.foldl (batchStep focus) d) x = hasKey d x := by
  intro is
  induction is with
  | nil => intro d; rfl
  | cons i t ih =>
      intro d
      rw [List.foldl_cons, ih (batchStep focus d i), hasKey_batchStep]

theorem sum_incrementFirst (d : List (α × ℕ)) (t : α) (q : ℕ)
    (hk : hasKey d t = true) :
    ((incrementFirst d t q).map (·.2)).sum = (d.map (·.2)).sum + q := by
  induction d with
  | nil => simp [hasKey] at hk
  | cons e rest ih =>
      by_cases he : e.1 = t
      · simp [incrementFirst, he]
        omega
      · have hk' : hasKey rest t = true := by
          simp only [hasKey, List.any_cons] at hk
          simpa [hasKey, he] using hk
        simp only [incrementFirst, he, ite_false, if_false, List.map_cons,
          List.sum_cons, ih hk']
        omega

theorem sum_foldl_batchStep (focus : List (α × ℚ)) :
    ∀ (r : ℕ) (d : List (α × ℕ)),
      (∀ i, i < r → ∃ e, focus.get? i = some e ∧ hasKey d e.1 = true) →
      (((List.range r).foldl (batchStep focus) d).map (·.2)).sum
        = (d.map (·.2)).sum + r := by
  intro r
  induction r with
  | zero => intro d _; simp
  | succ r ih =>
      intro d hall
      rw [List.range_succ, List.foldl_append, List.foldl_cons, List.foldl_nil]
      obtain ⟨e, hget, hkey⟩ := hall r (Nat.lt_succ_self r)
      have hkey' : hasKey ((List.range r).foldl (batchStep focus) d) e.1 = true := by
        rw [hasKey_foldl_batchStep]
        exact hkey
      have hstep : (batchStep focus ((List.range r).foldl (batchStep focus) d) r)
          = incrementFirst ((List.range r).foldl (batchStep focus) d) e.1 1 := by
        simp only [batchStep, hget]
        rw [if_pos hkey']
      rw [hstep, sum_incrementFirst _ _ _ hkey',
        ih d (fun i hi => hall i (Nat.lt_succ_of_lt hi))]
      omega

theorem sum_floors_le (l : List ℚ) :
    ((l.map fun x => ⌊x⌋).sum : ℚ) ≤ l.sum := by
  induction l with
  | nil => simp
  | cons a t ih =>
      simp only [List.map_cons, List.sum_cons]
      push_cast
      push_cast at ih
      have := Int.floor_le a
      linarith

theorem sum_lt_floors_add_length (l : List ℚ) (hne : l ≠ []) :
    l.sum < ((l.map fun x => ⌊x⌋).sum : ℚ) + l.length := by
  induction l with
  | nil => exact absurd rfl hne
  | cons a t ih =>
      simp only [List.map_cons, List.sum_cons, List.length_cons]
      have ha := Int.lt_floor_add_one a
      by_cases ht : t = []
      · subst ht
        simp

      · have := ih ht
        push_cast
        push_cast at this
        linarith

theorem firstPass_eq_map (focus : List (α × ℚ)) (total : ℕ) (P : ℚ)
    (hmin : ∀ e ∈ focus, 1 ≤ pyInt ((total : ℚ) * (e.2 / P))) :
    firstPass focus total P
      = focus.map fun e => (e.1, (pyInt ((total : ℚ) * (e.2 / P))).toNat) := by
  induction focus with
  | nil => rfl
  | cons e t ih =>
      have h1 := hmin e (List.mem_cons_self e t)
      have hne : (pyInt ((total : ℚ) * (e.2 / P))).toNat ≠ 0 := by omega
      simp only [firstPass, List.filterMap_cons, List.map_cons]
      rw [if_neg hne]
      dsimp only
      congr 1
      exact ih (fun x hx => hmin x (List.mem_cons_of_mem e hx))

theorem hasKey_map_fst (focus : List (α × ℚ)) (f : α × ℚ → ℕ) (x : α) :
    hasKey (focus.map fun e => (e.1, f e)) x = focus.any fun e => e.1 = x := by
  induction focus with
  | nil => rfl
  | cons e t ih =>
      simp only [List.map_cons, hasKey, List.any_cons] at ih ⊢
      rw [ih]

theorem sum_shares_eq_total (focus : List (α × ℚ)) (total : ℕ) (P : ℚ)
    (hP : P = (focus.map (·.2)).sum) (hP0 : P ≠ 0) :
    (focus.map fun e => (total : ℚ) * (e.2 / P)).sum = total := by
  have h1 : (focus.map fun e => (total : ℚ) * (e.2 / P)).sum
      = (focus.map fun e => ((total : ℚ) / P) * e.2).sum := by
    congr 1
    exact List.map_congr_left fun e _ => by ring
  rw [h1]
  have h2 : (focus.map fun e => ((total : ℚ) / P) * e.2).sum
      = ((total : ℚ) / P) * (focus.map (·.2)).sum := by
    have := List.sum_map_mul_left focus (fun e => (e.2 : ℚ)) ((total : ℚ) / P)
    simpa using this
  rw [h2, ← hP, div_mul_cancel₀]
  exact hP0

theorem cast_sum_toNat (l : List ℤ) (h : ∀ x ∈ l, 0 ≤ x) :
    ((l.map Int.toNat).sum : ℤ) = l.sum := by
  induction l with
  | nil => simp
  | cons a t ih =>
      simp only [List.map_cons, List.sum_cons]
      rw [Nat.cast_add, ih (fun x hx => h x (List.mem_cons_of_mem a hx)),
        Int.toNat_of_nonneg (h a (List.mem_cons_self a t))]

/-- C6 amended: for a nonempty focus-topic list with nonnegative
priorities, positive total priority, and a desired volume for which every
topic's proportional floor share is at least one question, the
batch-allocation conversion produces counts summing exactly to the desired
volume.  (Without the floor-share condition, remainder units addressed to
topics that received a zero first-pass share are dropped — see the
counterexample.) -/
theorem batch_allocation_sum (focus : List (α × ℚ)) (total : ℕ)
    (hne : focus ≠ [])
    (hnn : ∀ e ∈ focus, 0 ≤ e.2)
    (hP : 0 < (focus.map (·.2)).sum)
    (hmin : ∀ e ∈ focus,
      1 ≤ pyInt ((total : ℚ) * (e.2 / (focus.map (·.2)).sum))) :
    ((batchDistribution focus total).map (·.2)).sum = total := by
  set P := ((focus.map (·.2)).sum : ℚ) with hPdef
  have hx_nonneg : ∀ e ∈ focus, 0 ≤ (total : ℚ) * (e.2 / P) := by
    intro e he
    have := hnn e he
    positivity
  have hfloor : ∀ e ∈ focus,
      pyInt ((total : ℚ) * (e.2 / P)) = ⌊(total : ℚ) * (e.2 / P)⌋ :=
    fun e he => pyInt_of_nonneg _ (hx_nonneg e he)
  have hd1 : firstPass focus total P
      = focus.map fun e => (e.1, (pyInt ((total : ℚ) * (e.2 / P))).toNat) :=
    firstPass_eq_map focus total P hmin
  have hdist : ((firstPass focus total P).map (·.2)).sum
      = ((focus.map fun e => pyInt ((total : ℚ) * (e.2 / P))).map Int.toNat).sum := by
    rw [hd1]
    simp only [List.map_map]
    rfl
  have hshare_nonneg : ∀ x ∈ focus.map fun e => pyInt ((total : ℚ) * (e.2 / P)),
      0 ≤ x := by
    intro x hx
    rw [List.mem_map] at hx
    obtain ⟨e, he, rfl⟩ := hx
    exact le_trans (by norm_num) (hmin e he)
  have hcast : ((((firstPass focus total P).map (·.2)).sum : ℕ) : ℤ)
      = (focus.map fun e => pyInt ((total : ℚ) * (e.2 / P))).sum := by
    rw [hdist]
    exact cast_sum_toNat _ hshare_nonneg
  have hshares : (focus.map fun e => (total : ℚ) * (e.2 / P)).sum = total :=
    sum_shares_eq_total focus total P hPdef (ne_of_gt hP)
  have hfloor_map : (focus.map fun e => pyInt ((total : ℚ) * (e.2 / P)))
      = (focus.map fun e => (total : ℚ) * (e.2 / P)).map fun x => ⌊x⌋ := by
    rw [List.map_map]
    exact List.map_congr_left fun e he => hfloor e he
  have hle : ((focus.map fun e => pyInt ((total : ℚ) * (e.2 / P))).sum : ℚ)
      ≤ total := by
    rw [hfloor_map]
    calc (((focus.map fun e => (total : ℚ) * (e.2 / P)).map fun x => ⌊x⌋).sum : ℚ)
        ≤ (focus.map fun e => (total : ℚ) * (e.2 / P)).sum :=
          sum_floors_le _
      _ = total := hshares
  have hlt : (total : ℚ)
      < ((focus.map fun e => pyInt ((total : ℚ) * (e.2 / P))).sum : ℚ)
        + focus.length := by
    rw [hfloor_map]
    have hlne : (focus.map fun e => (total : ℚ) * (e.2 / P)) ≠ [] := by
      intro h
      exact hne (List.map_eq_nil_iff.mp h)
    have h2 := sum_lt_floors_add_length _ hlne
    rw [hshares] at h2
    simpa using h2
  have hdistle : ((firstPass focus total P).map (·.2)).sum ≤ total := by
    have h3 : ((((firstPass focus total P).map (·.2)).sum : ℕ) : ℤ) ≤ (total : ℤ) := by
      rw [hcast]
      exact_mod_cast hle
    exact_mod_cast h3
  have hdistlt : total
      < ((firstPass focus total P).map (·.2)).sum + focus.length := by
    have h3 : (total : ℤ)
        < ((((firstPass focus total P).map (·.2)).sum : ℕ) : ℤ) + focus.length := by
      rw [hcast]
      exact_mod_cast hlt
    exact_mod_cast h3
  have hall : ∀ i, i < total - ((firstPass focus total P).map (·.2)).sum →
      ∃ e, focus.get? i = some e ∧ hasKey (firstPass focus total P) e.1 = true := by
    intro i hi
    have hilen : i < focus.length := by omega
    refine ⟨focus.get ⟨i, hilen⟩, List.get?_eq_get hilen, ?_⟩
    rw [hd1, hasKey_map_fst]
    rw [List.any_eq_true]
    exact ⟨focus.get ⟨i, hilen⟩, List.get_mem focus _ hilen, by simp⟩
  simp only [batchDistribution]
  rw [if_pos hP]
  rw [sum_foldl_batchStep focus
    (total - ((firstPass focus total P).map (·.2)).sum)
    (firstPass focus total P) hall]
  omega
/-- C6 amended witness: two topics with priorities 3 and 1 and a desired
volume of 8 give floor shares 6 and 2, so the hypotheses hold and the
counts sum to 8. -/
theorem batch_allocation_sum_witness :
    (0 : ℚ) < (([((0:ℕ), (3:ℚ)), (1, 1)].map (·.2)).sum) ∧
    ((batchDistribution [((0:ℕ), (3:ℚ)), (1, 1)] 8).map (·.2)).sum = 8 :=
  ⟨by norm_num,
    batch_allocation_sum [((0:ℕ), (3:ℚ)), (1, 1)] 8
      (by simp)
      (by intro e he; rcases List.mem_cons.mp he with h | h
          · subst h; norm_num
          · rcases List.mem_cons.mp h with h2 | h2
            · subst h2; norm_num
            · simp at h2)
      (by norm_num)
      (by intro e he; rcases List.mem_cons.mp he with h | h
          · subst h; norm_num [pyInt]
          · rcases List.mem_cons.mp h with h2 | h2
            · subst h2; norm_num [pyInt]
            · simp at h2)⟩

/-- C6 counterexample: three topics with equal priority 1 and a desired
volume of 2 questions.  Every proportional floor share is
int(2·(1/3)) = 0, so no topic enters the distribution, and both remainder
units are dropped because their target topics are absent: the counts sum
to 0, not 2. -/
theorem batch_allocation_counterexample :
    ((batchDistribution [((0:ℕ), (1:ℚ)), (1, 1), (2, 1)] 2).map (·.2)).sum = 0
    ∧ (0 : ℕ) ≠ 2 := by
  norm_num [batchDistribution, firstPass, pyInt, batchStep, List.range_succ,
    hasKey, incrementFirst]

end Prepst
